import Mathlib

/-!
Verification of the pronunciation-validation and rollback-targeting core of
the jsmaker repository (src/services/validator.ts).

The TypeScript source is shallowly embedded: strings become `List Char`
wrapped in `String`, JavaScript numbers used for counting become `Nat`, the
similarity percentage (a JavaScript float computed by exact arithmetic on
small integers) becomes `ℚ`, and the asynchronous transcription collaborator
becomes an `Except String` value consumed by `validateAudio`.  Regular
expressions over the ASCII-plus-Spanish-accents alphabet actually used by the
source are embedded as executable character-class functions.
-/

/-- Character class of the JavaScript regex word character `\w`,
namely ASCII letters, ASCII digits and underscore. -/
def isWordChar (c : Char) : Bool :=
  c.isAlphanum || c = '_'

/-- Character class of the JavaScript regex whitespace `\s`
(restricted to the ASCII whitespace characters: space, tab, line feed,
vertical tab, form feed, carriage return). -/
def isSpaceChar (c : Char) : Bool :=
  c = ' ' || c = '\t' || c = '\n' || c = '\r' || c = '\x0b' || c = '\x0c'

/-- The accented letters named by the validator regexes, in both cases:
the character class `[áéíóúñü]` together with its `i`-flag uppercase forms. -/
def accentedChars : List Char :=
  ['á', 'é', 'í', 'ó', 'ú', 'ñ', 'ü', 'Á', 'É', 'Í', 'Ó', 'Ú', 'Ñ', 'Ü']

/-- Membership in the accented letter set (either case). -/
def isAccented (c : Char) : Bool :=
  accentedChars.contains c

/-- The uppercase character class `[A-ZÁÉÍÓÚÑÜ]` used by the
capitalization test of `extractCriticalWords`. -/
def isUpperStart (c : Char) : Bool :=
  ('A' ≤ c && c ≤ 'Z') || ['Á', 'É', 'Í', 'Ó', 'Ú', 'Ñ', 'Ü'].contains c

/-- Case folding used to embed the `i` regex flag: ASCII uppercase is
lowered via `Char.toLower`, and the uppercase accented letters appearing in
the validator patterns are mapped to their lowercase forms. -/
def caseFold (c : Char) : Char :=
  if c = 'Á' then 'á'
  else if c = 'É' then 'é'
  else if c = 'Í' then 'í'
  else if c = 'Ó' then 'ó'
  else if c = 'Ú' then 'ú'
  else if c = 'Ñ' then 'ñ'
  else if c = 'Ü' then 'ü'
  else c.toLower

/-- Whether `p` occurs at the very beginning of `l`. -/
def startsWithSeq : List Char → List Char → Bool
  | [], _ => true
  | _ :: _, [] => false
  | p :: ps, c :: cs => p = c && startsWithSeq ps cs

/-- Whether `p` occurs as a contiguous subsequence of `l`; this embeds the
JavaScript `String.prototype.includes` test and the fixed-substring regexes. -/
def containsSeq (p : List Char) : List Char → Bool
  | [] => startsWithSeq p []
  | c :: cs => startsWithSeq p (c :: cs) || containsSeq p cs

/-- Embedding of the regex `j[aeiou]`: a letter `j` immediately followed by a
vowel somewhere in the list. -/
def containsJVowel : List Char → Bool
  | c :: d :: cs =>
    (c = 'j' && (d = 'a' || d = 'e' || d = 'i' || d = 'o' || d = 'u')) ||
      containsJVowel (d :: cs)
  | _ => false

/-- Reference definition for claim C7: the classic single-character-edit
(Levenshtein) distance, by textbook structural recursion — insertion,
deletion and substitution each cost 1. -/
def levRef : List Char → List Char → Nat
  | [], t => t.length
  | s, [] => s.length
  | x :: s, y :: t =>
    if x = y then levRef s t
    else 1 + min (levRef s t) (min (levRef (x :: s) t) (levRef s (y :: t)))
termination_by s t => s.length + t.length

/-- One row step of the dynamic-programming table of `levenshteinDistance`
(src/services/validator.ts lines 7-33).  `prev` is row `i` of the table,
`base` is the value `matrix[i+1][0] = i+1`, and `c2` is `str2.charAt(i)`;
the result evaluated at `j` is `matrix[i+1][j]`.  Cell `(i+1, j+1)` compares
`str2.charAt(i)` with `str1.charAt(j)` and otherwise takes
`min(diagonal + 1, left + 1, up + 1)` exactly as in the source. -/
def nextRow (str1 : List Char) (c2 : Char) (prev : Nat → Nat) (base : Nat) : Nat → Nat
  | 0 => base
  | j + 1 =>
    if c2 = str1.getD j ' ' then prev j
    else min (prev j + 1) (min (nextRow str1 c2 prev base j + 1) (prev (j + 1) + 1))

/-- Row `i` of the Levenshtein dynamic-programming table: `levRow str1 str2 i j`
is `matrix[i][j]` of the source, the cost of transforming the first `j`
characters of `str1` into the first `i` characters of `str2`.  Row 0 is
`0..|str1|` and column 0 is `0..|str2|`, as in the source loops. -/
def levRow (str1 str2 : List Char) : Nat → Nat → Nat
  | 0 => fun j => j
  | i + 1 => nextRow str1 (str2.getD i ' ') (levRow str1 str2 i) (i + 1)

/-- List-level entry point of the dynamic program: `matrix[str2.length][str1.length]`. -/
def levList (s1 s2 : List Char) : Nat :=
  levRow s1 s2 s2.length s1.length

/-- Embedding of `levenshteinDistance` (src/services/validator.ts lines 7-33):
the final cell `matrix[str2.length][str1.length]` of the table. -/
def levenshteinDistance (str1 str2 : String) : Nat :=
  levRow str1.data str2.data str2.length str1.length

/-- Embedding of `calculateSimilarity` (src/services/validator.ts lines 38-44):
`((maxLength - distance) / maxLength) * 100`, or 100 when both strings are
empty.  The JavaScript float arithmetic is embedded in `ℚ`. -/
def calculateSimilarity (str1 str2 : String) : ℚ :=
  let maxLength := max str1.length str2.length
  if maxLength = 0 then 100
  else ((maxLength : ℚ) - (levenshteinDistance str1 str2 : ℚ)) / (maxLength : ℚ) * 100

/-- Embedding of `text.toLowerCase()` over the ASCII range. -/
def lowerStr (l : List Char) : List Char :=
  l.map Char.toLower

/-- Characters kept by `replace(/[^\w\s]/g, c)` with an empty replacement:
a character survives exactly when it is a word character or whitespace. -/
def keepChar (c : Char) : Bool :=
  isWordChar c || isSpaceChar c

/-- Embedding of `.replace(/[^\w\s]/g, c)` with empty replacement. -/
def stripPunct (l : List Char) : List Char :=
  l.filter keepChar

/-- Embedding of `.replace(/\s+/g, c)` with a single-space replacement:
every maximal run of whitespace becomes one space character. -/
def collapseWs : List Char → List Char
  | [] => []
  | [c] => if isSpaceChar c then [' '] else [c]
  | c₁ :: c₂ :: cs =>
    if isSpaceChar c₁ && isSpaceChar c₂ then collapseWs (c₂ :: cs)
    else (if isSpaceChar c₁ then ' ' else c₁) :: collapseWs (c₂ :: cs)

/-- Embedding of `.trim()`: drop whitespace from both ends. -/
def trimWs (l : List Char) : List Char :=
  List.rdropWhile isSpaceChar (List.dropWhile isSpaceChar l)

/-- Embedding of `normalizeText` (src/services/validator.ts lines 49-55):
lowercase, strip non-word non-space characters, collapse whitespace runs to a
single space, trim. -/
def normalizeText (text : String) : String :=
  ⟨trimWs (collapseWs (stripPunct (lowerStr text.data)))⟩

/-- Embedding of `lyrics.split(n)` for the newline separator: split into
lines at each line-feed character, keeping empty segments, as
`String.prototype.split` does. -/
def splitOnNl : List Char → List (List Char)
  | [] => [[]]
  | c :: cs =>
    if c = '\n' then [] :: splitOnNl cs
    else
      match splitOnNl cs with
      | [] => [[c]]
      | h :: t => (c :: h) :: t

/-- Embedding of `Array.prototype.join` with a newline separator. -/
def joinNl : List (List Char) → List Char
  | [] => []
  | [l] => l
  | l :: ls => l ++ '\n' :: joinNl ls

/-- Embedding of `line.split(/\s+/)`: split at each maximal whitespace run;
a leading or trailing run contributes an empty segment, as the JavaScript
regex split does. -/
def splitWS : List Char → List (List Char)
  | [] => [[]]
  | c :: cs =>
    if isSpaceChar c then
      match cs with
      | d :: _ => if isSpaceChar d then splitWS cs else [] :: splitWS cs
      | [] => [] :: splitWS cs
    else
      match splitWS cs with
      | [] => [[c]]
      | h :: t => (c :: h) :: t

/-- The section-marker test applied to a trimmed line:
`line.startsWith(lb) && line.endsWith(rb)` for the bracket characters. -/
def isBracketLine (l : List Char) : Bool :=
  decide (l.head? = some '[') && decide (l.getLast? = some ']')

/-- Embedding of `word.replace(re, c)` for the character class
`[^\wáéíóúñü]` with the `gi` flags and empty replacement: keep exactly the
word characters and the accented letters, in either case. -/
def cleanToken (w : List Char) : List Char :=
  w.filter (fun c => isWordChar c || isAccented c)

/-- Embedding of `isMispronunciationProne` (src/services/validator.ts lines
93-107): the fixed pattern list, each pattern tested case-insensitively. -/
def isMispronunciationProne (word : String) : Bool :=
  let f := word.data.map caseFold
  containsSeq "méxi".data f || containsSeq "guerre".data f ||
    containsSeq "juan".data f || containsSeq "josé".data f ||
    containsSeq "ll".data f || containsSeq "ñ".data f ||
    containsSeq "rr".data f || containsJVowel f

/-- The qualification test of `extractCriticalWords` for one clean token:
length above 2, and capitalized, or containing an accent mark (either case),
or matching a mispronunciation-risk pattern. -/
def isCriticalToken (cw : List Char) : Bool :=
  decide (2 < cw.length) &&
    ((match cw.head? with
      | some c => isUpperStart c
      | none => false) ||
      cw.any isAccented ||
      isMispronunciationProne ⟨cw⟩)

/-- First-occurrence deduplication with an accumulator of already seen
elements; `dedupFirst` below embeds the `[...new Set(a)]` idiom, which keeps
the first occurrence of each element in order. -/
def dedupAux (seen : List String) : List String → List String
  | [] => []
  | x :: xs => if seen.contains x then dedupAux seen xs else x :: dedupAux (x :: seen) xs

/-- Embedding of `[...new Set(a)]`: remove duplicates, keeping first occurrences. -/
def dedupFirst (l : List String) : List String :=
  dedupAux [] l

/-- Embedding of `extractCriticalWords` (src/services/validator.ts lines
61-88): split into lines, skip section-marker lines, split the remaining
lines on whitespace, clean each token, keep the qualifying clean tokens, and
deduplicate. -/
def extractCriticalWords (lyrics : String) : List String :=
  dedupFirst <|
    (splitOnNl lyrics.data).flatMap fun line =>
      if isBracketLine (trimWs line) then []
      else
        (splitWS line).filterMap fun word =>
          let cleanWord := cleanToken word
          if isCriticalToken cleanWord then some ⟨cleanWord⟩ else none

/-- The text of the transcription collaborator response
(`WhisperTranscribeResponse` of src/services/openai.ts); only the `text`
field is consumed by `validateAudio`. -/
structure TranscriptionResult where
  text : String
deriving DecidableEq

/-- One critical word that failed verification (src/types/index.ts). -/
structure ValidationError where
  word : String
  expected : String
  got : String
deriving DecidableEq

/-- The verdict of a completed validation (src/types/index.ts). -/
structure ValidationResult where
  valid : Bool
  errors : List ValidationError
  confidence : ℚ
  transcription : String
deriving DecidableEq

/-- Embedding of the regex test `new RegExp(b + nw + b, i).test(nt)` for the
word-boundary token `b`, over normalized text.  Normalized text consists of
word characters separated by single spaces, so for a nonempty normalized word
the test holds exactly when the word is one of the whitespace-split tokens;
for the empty word the pattern reduces to a word boundary existing at all,
which over normalized text means the text is nonempty. -/
def wordBoundaryMatch (nw nt : String) : Bool :=
  if nw.data.isEmpty then !nt.data.isEmpty
  else decide (nw.data ∈ splitWS nt.data)

/-- The closest-match scan of `validateAudio` (src/services/validator.ts
lines 146-153): fold over the transcription tokens keeping the closest match
and the minimum distance so far (`none` embeds the initial `Infinity`), and
accept a candidate only when its distance is below half the normalized word
length. -/
def closestLoop (nw : List Char) : List (List Char) → List Char × Option Nat → List Char × Option Nat
  | [], st => st
  | w :: ws, (cm, md) =>
    let d := levList nw w
    let better := match md with
      | none => true
      | some m => decide (d < m)
    let accept := better && decide ((d : ℚ) < (nw.length : ℚ) * 0.5)
    closestLoop nw ws (if accept then (w, some d) else (cm, md))

/-- The closest match found for a normalized word among the transcription
tokens, starting from the empty string and infinite distance. -/
def findClosest (nw : List Char) (toks : List (List Char)) : List Char :=
  (closestLoop nw toks ([], none)).1

/-- The sentinel recorded when no candidate qualifies. -/
def notFoundSentinel : String := "(not found)"

/-- Embedding of `validateAudio` (src/services/validator.ts lines 112-174).
The transcription collaborator call (and the audio download inside it) is
embedded as an `Except String TranscriptionResult` argument; the
`try ... catch { throw }` of the source rethrows any failure unchanged.
On success: extract critical words from the ground truth, normalize both
texts, score their similarity, record a `ValidationError` for every critical
word without a whole-word match in the normalized transcription (with the
closest qualifying token, or the not-found sentinel, as `got`), and assemble
the verdict with `valid = errors empty AND confidence > 85`. -/
def validateAudio (transcription : Except String TranscriptionResult)
    (groundTruthLyrics : String) : Except String ValidationResult :=
  match transcription with
  | .error e => .error e
  | .ok tr =>
    let criticalWords := extractCriticalWords groundTruthLyrics
    let normalizedGroundTruth := normalizeText groundTruthLyrics
    let normalizedTranscription := normalizeText tr.text
    let confidence := calculateSimilarity normalizedGroundTruth normalizedTranscription
    let errors := criticalWords.filterMap fun word =>
      let normalizedWord := normalizeText word
      if wordBoundaryMatch normalizedWord normalizedTranscription then none
      else
        let closestMatch := findClosest normalizedWord.data (splitWS normalizedTranscription.data)
        some { word := word, expected := word,
               got := if closestMatch.isEmpty then notFoundSentinel else ⟨closestMatch⟩ }
    .ok { valid := errors.isEmpty && decide ((85 : ℚ) < confidence),
          errors := errors,
          confidence := confidence,
          transcription := tr.text }

/-- The rollback target (return type of `findRollbackPoint`). -/
structure RollbackTarget where
  «section» : String
  line : Nat
deriving DecidableEq

/-- Embedding of the JavaScript truthiness guard
`errorPosition && i > errorPosition`: an absent position and the number 0 are
both falsy. -/
def truthyGt (errorPosition : Option Nat) (i : Nat) : Bool :=
  match errorPosition with
  | none => false
  | some e => !decide (e = 0) && decide (e < i)

/-- The scanning loop of `findRollbackPoint` (src/services/validator.ts lines
187-205), with the running pair `(lastSectionLine, lastSection)`.  On a
section-marker line the verse/chorus update happens first, and then the
`errorPosition && i > errorPosition` guard breaks out of the loop — returning
the already updated pair, exactly as the source does. -/
def rollbackLoop (errorPosition : Option Nat) :
    List (List Char) → Nat → Nat × String → Nat × String
  | [], _, st => st
  | line :: rest, i, st =>
    if isBracketLine (trimWs line) then
      let sec := (((trimWs line).drop 1).dropLast).map Char.toLower
      let st' :=
        if containsSeq "verse".data sec || containsSeq "chorus".data sec then (i, (⟨sec⟩ : String))
        else st
      if truthyGt errorPosition i then st'
      else rollbackLoop errorPosition rest (i + 1) st'
    else rollbackLoop errorPosition rest (i + 1) st

/-- Embedding of `findRollbackPoint` (src/services/validator.ts lines
179-211): scan the lines with `rollbackLoop` starting from line 0 and the
default state `(0, Intro)`. -/
def findRollbackPoint (lyrics : String) (errorPosition : Option Nat) : RollbackTarget :=
  let st := rollbackLoop errorPosition (splitOnNl lyrics.data) 0 (0, "Intro")
  { «section» := st.2, line := st.1 }

/-- Embedding of `extractRemainingLyrics` (src/services/validator.ts lines
216-219): `lines.slice(fromLine).join(newline)`. -/
def extractRemainingLyrics (lyrics : String) (fromLine : Nat) : String :=
  ⟨joinNl ((splitOnNl lyrics.data).drop fromLine)⟩

/-- Letter in the sense of claim C5: an ASCII letter or a member of the
accented set, in either case. -/
def isLetterLike (c : Char) : Bool :=
  c.isAlpha || isAccented c

/-- The errors of a completed validation (empty for a failed one); used to
state concrete facts about validation runs without evaluating the rational
confidence field. -/
def errsOf : Except String ValidationResult → List ValidationError
  | .ok r => r.errors
  | .error _ => []

/-- Claim-side acceptance threshold of claim C4 as stated: edit distance
strictly below half the length of the original critical word. -/
def claimQualifies (w : String) (nw tok : List Char) : Prop :=
  (levList nw tok : ℚ) < (w.length : ℚ) * 0.5

instance (w : String) (nw tok : List Char) : Decidable (claimQualifies w nw tok) := by
  unfold claimQualifies
  infer_instance

/-- Claim-side description, from the words of claim C4, of the `got` field
recorded for a critical word `w` that had no whole-word match: the
whitespace token of the normalized transcription closest to the normalized
word, accepted only below half the length of `w`; the not-found sentinel
when no token qualifies. -/
def claimGotOk (w got nt : String) : Prop :=
  let nw := (normalizeText w).data
  let toks := splitWS nt.data
  if ∃ tok ∈ toks, claimQualifies w nw tok then
    ∃ tok ∈ toks, got = (⟨tok⟩ : String) ∧ claimQualifies w nw tok ∧
      ∀ tok' ∈ toks, claimQualifies w nw tok' → levList nw tok ≤ levList nw tok'
  else got = notFoundSentinel

instance (w got nt : String) : Decidable (claimGotOk w got nt) := by
  unfold claimGotOk
  infer_instance

/-- Integer-arithmetic version of `closestLoop`, used to evaluate concrete
validation runs inside the kernel: the rational acceptance threshold
`distance < length * 0.5` is replaced by the equivalent integer comparison
`2 * distance < length`. -/
def closestLoopN (nw : List Char) : List (List Char) → List Char × Option Nat → List Char × Option Nat
  | [], st => st
  | w :: ws, (cm, md) =>
    let d := levList nw w
    let better := match md with
      | none => true
      | some m => decide (d < m)
    let accept := better && decide (2 * d < nw.length)
    closestLoopN nw ws (if accept then (w, some d) else (cm, md))

/-- Amended claim-side description of the `got` field for claim C4: identical
to `claimGotOk` except that the acceptance threshold is half the length of
the NORMALIZED critical word — the quantity the source actually compares
against. -/
def amendedGotOk (w got nt : String) : Prop :=
  let nw := (normalizeText w).data
  let toks := splitWS nt.data
  if ∃ tok ∈ toks, (levList nw tok : ℚ) < (nw.length : ℚ) * 0.5 then
    ∃ tok ∈ toks, got = (⟨tok⟩ : String) ∧
      (levList nw tok : ℚ) < (nw.length : ℚ) * 0.5 ∧
      ∀ tok' ∈ toks, (levList nw tok' : ℚ) < (nw.length : ℚ) * 0.5 →
        levList nw tok ≤ levList nw tok'
  else got = notFoundSentinel

instance (w got nt : String) : Decidable (amendedGotOk w got nt) := by
  unfold amendedGotOk
  infer_instance

theorem levRef_nil_left (t : List Char) : levRef [] t = t.length := by
  simp [levRef]

theorem levRef_nil_right (s : List Char) : levRef s [] = s.length := by
  cases s <;> simp [levRef]

theorem levRef_cons_cons (x y : Char) (s t : List Char) :
    levRef (x :: s) (y :: t) =
      if x = y then levRef s t
      else 1 + min (levRef s t) (min (levRef (x :: s) t) (levRef s (y :: t))) := by
  simp [levRef]

theorem levRef_cons_cons_same (c : Char) (s t : List Char) :
    levRef (c :: s) (c :: t) = levRef s t := by
  simp [levRef]

theorem levRef_cons_cons_ne {c d : Char} (hcd : c ≠ d) (s t : List Char) :
    levRef (c :: s) (d :: t) =
      1 + min (levRef s t) (min (levRef (c :: s) t) (levRef s (d :: t))) := by
  simp [levRef, hcd]


theorem min_one_add (u v : Nat) : (1 + u) ⊓ (1 + v) = 1 + u ⊓ v := by omega

theorem inf_nine_comm (P Q R S T U V W Z : ℕ) :
    (P ⊓ (Q ⊓ R)) ⊓ ((S ⊓ (T ⊓ U)) ⊓ (V ⊓ (W ⊓ Z))) =
      (P ⊓ (S ⊓ V)) ⊓ ((Q ⊓ (T ⊓ W)) ⊓ (R ⊓ (U ⊓ Z))) := by
  apply le_antisymm
  · apply le_inf
    · apply le_inf
      · exact le_trans inf_le_left inf_le_left
      · apply le_inf
        · exact le_trans inf_le_right (le_trans inf_le_left inf_le_left)
        · exact le_trans inf_le_right (le_trans inf_le_right inf_le_left)
    · apply le_inf
      · apply le_inf
        · exact le_trans inf_le_left (le_trans inf_le_right inf_le_left)
        · apply le_inf
          · exact le_trans inf_le_right (le_trans inf_le_left (le_trans inf_le_right inf_le_left))
          · exact le_trans inf_le_right (le_trans inf_le_right (le_trans inf_le_right inf_le_left))
      · apply le_inf
        · exact le_trans inf_le_left (le_trans inf_le_right inf_le_right)
        · apply le_inf
          · exact le_trans inf_le_right (le_trans inf_le_left (le_trans inf_le_right inf_le_right))
          · exact le_trans inf_le_right (le_trans inf_le_right (le_trans inf_le_right inf_le_right))
  · apply le_inf
    · apply le_inf
      · exact le_trans inf_le_left inf_le_left
      · apply le_inf
        · exact le_trans inf_le_right (le_trans inf_le_left inf_le_left)
        · exact le_trans inf_le_right (le_trans inf_le_right inf_le_left)
    · apply le_inf
      · apply le_inf
        · exact le_trans inf_le_left (le_trans inf_le_right inf_le_left)
        · apply le_inf
          · exact le_trans inf_le_right (le_trans inf_le_left (le_trans inf_le_right inf_le_left))
          · exact le_trans inf_le_right (le_trans inf_le_right (le_trans inf_le_right inf_le_left))
      · apply le_inf
        · exact le_trans inf_le_left (le_trans inf_le_right inf_le_right)
        · apply le_inf
          · exact le_trans inf_le_right (le_trans inf_le_left (le_trans inf_le_right inf_le_right))
          · exact le_trans inf_le_right (le_trans inf_le_right (le_trans inf_le_right inf_le_right))

theorem levRef_snoc_aux (x y : Char) (n : Nat) :
    ∀ (s t : List Char), s.length + t.length ≤ n →
      levRef (s ++ [x]) (t ++ [y]) =
        if x = y then levRef s t
        else 1 + min (levRef s t) (min (levRef (s ++ [x]) t) (levRef s (t ++ [y]))) := by
  induction n with
  | zero =>
    intro s t h
    cases s with
    | nil =>
      cases t with
      | nil =>
        simp only [List.nil_append, levRef_cons_cons, levRef_nil_left, levRef_nil_right,
          List.length_cons, List.length_nil]
      | cons b t' =>
        simp only [List.length_cons, List.length_nil] at h
        omega
    | cons a s' =>
      simp only [List.length_cons] at h
      omega
  | succ n ih =>
    intro s t h
    cases s with
    | nil =>
      cases t with
      | nil =>
        simp only [List.nil_append, levRef_cons_cons, levRef_nil_left, levRef_nil_right,
          List.length_cons, List.length_nil]
      | cons b t' =>
        have ihe := ih [] t' (by simp only [List.length_nil, List.length_cons] at h ⊢; omega)
        simp only [List.nil_append] at ihe ⊢
        simp only [List.cons_append]
        simp only [levRef_cons_cons, levRef_nil_left, ihe, List.length_append,
          List.length_cons, List.length_nil] at h ⊢
        split_ifs <;> omega
    | cons a s' =>
      cases t with
      | nil =>
        have ihe := ih s' [] (by simp at h ⊢; omega)
        simp only [List.nil_append] at ihe ⊢
        simp only [List.cons_append]
        simp only [levRef_cons_cons, levRef_nil_right, ihe, List.length_append,
          List.length_cons, List.length_nil]
        split_ifs <;> omega
      | cons b t' =>
        have ih1 := ih s' t' (by simp at h ⊢; omega)
        have ih2 := ih (a :: s') t' (by simp at h ⊢; omega)
        have ih3 := ih s' (b :: t') (by simp at h ⊢; omega)
        simp only [List.cons_append] at ih2 ih3 ⊢
        by_cases hab : a = b
        · subst hab
          simp only [levRef_cons_cons_same, ih1]
        · simp only [levRef_cons_cons_ne hab, ih1, ih2, ih3]
          clear ih ih1 ih2 ih3 h
          generalize levRef s' t' = P
          generalize levRef (s' ++ [x]) t' = Q
          generalize levRef s' (t' ++ [y]) = R
          generalize levRef (a :: s') t' = S
          generalize levRef (a :: (s' ++ [x])) t' = T
          generalize levRef (a :: s') (t' ++ [y]) = U
          generalize levRef s' (b :: t') = V
          generalize levRef (s' ++ [x]) (b :: t') = W
          generalize levRef s' (b :: (t' ++ [y])) = Z
          split_ifs
          · rfl
          · simp only [min_one_add]
            rw [inf_nine_comm]

theorem levRef_snoc (x y : Char) (s t : List Char) :
    levRef (s ++ [x]) (t ++ [y]) =
      if x = y then levRef s t
      else 1 + min (levRef s t) (min (levRef (s ++ [x]) t) (levRef s (t ++ [y]))) :=
  levRef_snoc_aux x y (s.length + t.length) s t le_rfl

theorem levRow_eq (a b : List Char) :
    ∀ i, i ≤ b.length → ∀ j, j ≤ a.length →
      levRow a b i j = levRef (a.take j) (b.take i) := by
  intro i
  induction i with
  | zero =>
    intro _ j hj
    have h0 : levRow a b 0 j = j := rfl
    rw [h0, List.take_zero, levRef_nil_right, List.length_take]
    omega
  | succ i ihi =>
    intro hi j
    induction j with
    | zero =>
      intro _
      have h0 : levRow a b (i + 1) 0 = i + 1 := rfl
      rw [h0, List.take_zero, levRef_nil_left, List.length_take]
      omega
    | succ j ihj =>
      intro hj
      have hi' : i ≤ b.length := Nat.le_of_succ_le hi
      have hj' : j ≤ a.length := Nat.le_of_succ_le hj
      have hjlt : j < a.length := hj
      have hilt : i < b.length := hi
      have ihj' := ihj hj'
      have hta : a.take (j + 1) = a.take j ++ [a[j]] := by
        rw [List.take_succ]
        simp [List.getElem?_eq_getElem hjlt]
      have htb : b.take (i + 1) = b.take i ++ [b[i]] := by
        rw [List.take_succ]
        simp [List.getElem?_eq_getElem hilt]
      have hunf : levRow a b (i + 1) (j + 1) =
          if b.getD i ' ' = a.getD j ' ' then levRow a b i j
          else min (levRow a b i j + 1)
            (min (levRow a b (i + 1) j + 1) (levRow a b i (j + 1) + 1)) := rfl
      rw [hunf, hta, htb, levRef_snoc, ← hta, ← htb]
      rw [← ihi hi' j hj', ← ihi hi' (j + 1) hj, ← ihj']
      have hgb : b.getD i ' ' = b[i] := List.getD_eq_getElem b ' ' hilt
      have hga : a.getD j ' ' = a[j] := List.getD_eq_getElem a ' ' hjlt
      rw [hgb, hga]
      by_cases hc : b[i] = a[j]
      · rw [if_pos hc, if_pos hc.symm]
      · rw [if_neg hc, if_neg fun hh => hc hh.symm]
        omega

theorem levenshteinDistance_eq_levRef (s1 s2 : String) :
    levenshteinDistance s1 s2 = levRef s1.data s2.data := by
  have h := levRow_eq s1.data s2.data s2.data.length le_rfl s1.data.length le_rfl
  rw [List.take_length, List.take_length] at h
  exact h

theorem levRef_self (l : List Char) : levRef l l = 0 := by
  induction l with
  | nil => simp [levRef]
  | cons c cs ih => simp [levRef_cons_cons_same, ih]

theorem levRef_le_max_aux (n : Nat) :
    ∀ (s t : List Char), s.length + t.length ≤ n →
      levRef s t ≤ max s.length t.length := by
  induction n with
  | zero =>
    intro s t h
    cases s with
    | nil => simp [levRef_nil_left]
    | cons a s' =>
      simp only [List.length_cons] at h
      omega
  | succ n ih =>
    intro s t h
    cases s with
    | nil => simp [levRef_nil_left]
    | cons a s' =>
      cases t with
      | nil => simp [levRef_nil_right]
      | cons b t' =>
        have ihe := ih s' t' (by simp at h ⊢; omega)
        rw [levRef_cons_cons]
        simp only [List.length_cons]
        split_ifs <;> omega

theorem levRef_le_max (s t : List Char) : levRef s t ≤ max s.length t.length :=
  levRef_le_max_aux (s.length + t.length) s t le_rfl

theorem levenshteinDistance_le_max (a b : String) :
    levenshteinDistance a b ≤ max a.length b.length := by
  rw [levenshteinDistance_eq_levRef]
  exact levRef_le_max a.data b.data

/-- C7: `levenshteinDistance` computes the classic single-character-edit
distance (insertion, deletion, substitution each cost 1): the dynamic program
agrees with the textbook recursive definition `levRef` on all strings; in
particular the kitten/sitting distance is 3 and the distance of every string
to itself is 0. -/
theorem C7_levenshtein_matches_reference :
    (∀ a b : String, levenshteinDistance a b = levRef a.data b.data) ∧
      levenshteinDistance "kitten" "sitting" = 3 ∧
      ∀ s : String, levenshteinDistance s s = 0 := by
  refine ⟨levenshteinDistance_eq_levRef, by decide, fun s => ?_⟩
  rw [levenshteinDistance_eq_levRef]
  exact levRef_self s.data

/-- C6: `calculateSimilarity` returns 100 when both strings are empty and
otherwise `(maxLen - distance) / maxLen * 100`; the result always lies in
`[0, 100]`, and on cat/cats it is 75. -/
theorem C6_calculateSimilarity_contract :
    (∀ a b : String, 0 ≤ calculateSimilarity a b ∧ calculateSimilarity a b ≤ 100) ∧
      calculateSimilarity "" "" = 100 ∧
      (∀ a b : String, max a.length b.length ≠ 0 →
        calculateSimilarity a b =
          (((max a.length b.length : ℕ) : ℚ) - (levenshteinDistance a b : ℚ)) /
            ((max a.length b.length : ℕ) : ℚ) * 100) ∧
      calculateSimilarity "cat" "cats" = 75 := by
  refine ⟨?_, ?_, ?_, ?_⟩
  · intro a b
    by_cases h : max a.length b.length = 0
    · simp [calculateSimilarity, h]
    · have hd : levenshteinDistance a b ≤ max a.length b.length :=
        levenshteinDistance_le_max a b
    
      have hdq : (levenshteinDistance a b : ℚ) ≤ ((max a.length b.length : ℕ) : ℚ) := by
        exact_mod_cast hd
      have hM0 : (0 : ℚ) ≤ ((max a.length b.length : ℕ) : ℚ) := Nat.cast_nonneg _
      have hd0 : (0 : ℚ) ≤ (levenshteinDistance a b : ℚ) := Nat.cast_nonneg _
      simp only [calculateSimilarity, h, if_false]
      constructor
      · apply mul_nonneg _ (by norm_num : (0:ℚ) ≤ 100)
        exact div_nonneg (by linarith) hM0
      · have h1 : (((max a.length b.length : ℕ) : ℚ) - (levenshteinDistance a b : ℚ)) /
            ((max a.length b.length : ℕ) : ℚ) ≤ 1 :=
          div_le_one_of_le₀ (by linarith) hM0
        have h2 := mul_le_mul_of_nonneg_right h1 (by norm_num : (0:ℚ) ≤ 100)
        simpa using h2
  · have h0 : ("".length) = 0 := rfl
    simp [calculateSimilarity, h0]
  · intro a b h
    simp [calculateSimilarity, h]
  · have hcc : levenshteinDistance "cat" "cats" = 1 := by decide
    have h3 : ("cat".length) = 3 := rfl
    have h4 : ("cats".length) = 4 := rfl
    simp [calculateSimilarity, hcc, h3, h4]
    norm_num

/-- Witness for C6: the nonempty-case formula instantiated at cat/cats. -/
theorem C6_calculateSimilarity_contract_witness :
    calculateSimilarity "cat" "cats" =
      (((max "cat".length "cats".length : ℕ) : ℚ) - (levenshteinDistance "cat" "cats" : ℚ)) /
        ((max "cat".length "cats".length : ℕ) : ℚ) * 100 :=
  C6_calculateSimilarity_contract.2.2.1 "cat" "cats" (by decide)

theorem splitOnNl_ne_nil (l : List Char) : splitOnNl l ≠ [] := by
  cases l with
  | nil => simp [splitOnNl]
  | cons c cs =>
    simp only [splitOnNl]
    by_cases h : c = '\n'
    · simp [h]
    · simp only [h, if_false]
      split <;> simp

theorem joinNl_splitOnNl (l : List Char) : joinNl (splitOnNl l) = l := by
  induction l with
  | nil => rfl
  | cons c cs ih =>
    by_cases h : c = '\n'
    · subst h
      simp only [splitOnNl, if_pos rfl]
      cases hs : splitOnNl cs with
      | nil => exact absurd hs (splitOnNl_ne_nil cs)
      | cons r rs =>
        rw [hs] at ih
        simpa [joinNl] using ih
    · simp only [splitOnNl, if_neg h]
      cases hs : splitOnNl cs with
      | nil => exact absurd hs (splitOnNl_ne_nil cs)
      | cons r rs =>
        rw [hs] at ih
        cases rs with
        | nil =>
          simp only [joinNl] at ih ⊢
          rw [ih]
        | cons r2 rs2 =>
          simp only [joinNl, List.cons_append] at ih ⊢
          rw [ih]

/-- C9: `extractRemainingLyrics` from line 0 splits on newlines and rejoins
from the first line, reproducing the input string exactly. -/
theorem C9_extractRemainingLyrics_zero (lyrics : String) :
    extractRemainingLyrics lyrics 0 = lyrics := by
  unfold extractRemainingLyrics
  rw [List.drop_zero, joinNl_splitOnNl]

theorem rollbackLoop_some_zero (lines : List (List Char)) :
    ∀ (i : Nat) (st : Nat × String),
      rollbackLoop (some 0) lines i st = rollbackLoop none lines i st := by
  induction lines with
  | nil => intro i st; rfl
  | cons line rest ih =>
    intro i st
    simp only [rollbackLoop, truthyGt]
    by_cases hb : isBracketLine (trimWs line)
    · simp [hb, ih]
    · simp [hb, ih]

/-- C10: calling `findRollbackPoint` with error position 0 gives exactly the
same rollback target as calling it with no error position: the zero position
is falsy in the source guard and never limits the scan. -/
theorem C10_findRollbackPoint_zero_eq_none (lyrics : String) :
    findRollbackPoint lyrics (some 0) = findRollbackPoint lyrics none := by
  unfold findRollbackPoint
  rw [rollbackLoop_some_zero]

/-- C1: evaluation of the code at the failing input of the claim.  With the
example lyrics and error position 3 (which is before the Chorus marker on
line 4), `findRollbackPoint` returns the Chorus marker at line 4 — a marker
whose index exceeds the error position — because the source updates the
last-seen section before checking the break guard; the claim (and the spec)
require the Verse 1 marker at line 2 here.  Without an error position the
code also returns the Chorus line. -/
theorem C1_findRollbackPoint_failing_input :
    findRollbackPoint "[Intro]\nhola\n[Verse 1]\nmundo\n[Chorus]\nfin" (some 3) =
        { «section» := "chorus", line := 4 } ∧
      findRollbackPoint "[Intro]\nhola\n[Verse 1]\nmundo\n[Chorus]\nfin" none =
        { «section» := "chorus", line := 4 } := by
  constructor <;> decide

/-- C3: a failure of the transcription collaborator is rethrown unchanged by
`validateAudio` and never turned into a verdict, so a failed validation is
distinguishable from a completed verdict with valid false. -/
theorem C3_validateAudio_propagates_failure :
    (∀ (e : String) (gt : String), validateAudio (.error e) gt = .error e) ∧
      ∀ (e : String) (gt : String) (r : ValidationResult),
        validateAudio (.error e) gt ≠ .ok r := by
  refine ⟨fun e gt => rfl, fun e gt r h => ?_⟩
  simp [validateAudio] at h

/-- C2: whenever `validateAudio` completes with a verdict, `valid` is true
exactly when the error list is empty and the confidence exceeds 85. -/
theorem C2_valid_iff_no_errors_and_confident (t : TranscriptionResult) (gt : String)
    (r : ValidationResult) (h : validateAudio (.ok t) gt = .ok r) :
    r.valid = true ↔ r.errors = [] ∧ (85 : ℚ) < r.confidence := by
  simp only [validateAudio, Except.ok.injEq] at h
  rw [← h]
  simp [Bool.and_eq_true, List.isEmpty_iff, decide_eq_true_eq]

theorem validateAudio_hola :
    validateAudio (.ok ⟨"hola"⟩) "hola" =
      .ok { valid := true, errors := [], confidence := 100, transcription := "hola" } := by
  have hcrit : extractCriticalWords "hola" = [] := by decide
  have hnorm : normalizeText "hola" = "hola" := by decide
  have hsim : calculateSimilarity "hola" "hola" = 100 := by
    have h0 : levenshteinDistance "hola" "hola" = 0 := by decide
    have hl : ("hola".length) = 4 := rfl
    simp [calculateSimilarity, h0, hl]
  have hdec : (decide ((85 : ℚ) < 100)) = true := decide_eq_true (by norm_num)
  simp only [validateAudio, hcrit, hnorm, hsim, List.filterMap_nil, Except.ok.injEq,
    ValidationResult.mk.injEq, hdec]
  simp

/-- Witness for C2: the completed hola validation has valid true, no errors
and confidence 100. -/
theorem C2_valid_iff_witness :
    ({ valid := true, errors := [], confidence := 100, transcription := "hola" } :
        ValidationResult).valid = true ↔
      ({ valid := true, errors := [], confidence := 100, transcription := "hola" } :
          ValidationResult).errors = [] ∧
        (85 : ℚ) < ({ valid := true, errors := [], confidence := 100, transcription := "hola" } :
          ValidationResult).confidence :=
  C2_valid_iff_no_errors_and_confident ⟨"hola"⟩ "hola" _ validateAudio_hola

theorem dedupAux_subset (x : String) :
    ∀ (l : List String) (seen : List String), x ∈ dedupAux seen l → x ∈ l := by
  intro l
  induction l with
  | nil => intro seen h; simp [dedupAux] at h
  | cons a as ih =>
    intro seen h
    simp only [dedupAux] at h
    by_cases hc : seen.contains a
    · rw [if_pos hc] at h
      exact List.mem_cons_of_mem _ (ih _ h)
    · rw [if_neg hc] at h
      rcases List.mem_cons.mp h with h' | h'
      · exact h' ▸ List.mem_cons_self a as
      · exact List.mem_cons_of_mem _ (ih _ h')

theorem mem_dedupFirst {x : String} {l : List String} (h : x ∈ dedupFirst l) : x ∈ l :=
  dedupAux_subset x l [] h

/-- C4 and C5 and C8 share facts about membership in the extraction; this is
the raw membership characterization of `extractCriticalWords`. -/
theorem mem_extractCriticalWords {lyrics : String} {w : String}
    (hw : w ∈ extractCriticalWords lyrics) :
    ∃ word : List Char, isCriticalToken (cleanToken word) = true ∧ w = ⟨cleanToken word⟩ := by
  unfold extractCriticalWords at hw
  have hw2 := mem_dedupFirst hw
  rw [List.mem_flatMap] at hw2
  obtain ⟨line, _, hwl⟩ := hw2
  by_cases hb : isBracketLine (trimWs line) = true
  · rw [if_pos hb] at hwl
    simp at hwl
  · rw [if_neg hb] at hwl
    rw [List.mem_filterMap] at hwl
    obtain ⟨word, _, hsome⟩ := hwl
    by_cases hc : isCriticalToken (cleanToken word) = true
    · rw [if_pos hc] at hsome
      exact ⟨word, hc, (Option.some.inj hsome).symm⟩
    · rw [if_neg hc] at hsome
      simp at hsome

/-- C5 (amended): every critical word returned by `extractCriticalWords` has
length above 2 and consists solely of word characters (ASCII letters, digits,
underscore) and accented letters, in either case — exactly the characters the
clean-token regex keeps. -/
theorem C5_criticalWords_clean_amended (lyrics : String) (w : String)
    (hw : w ∈ extractCriticalWords lyrics) :
    2 < w.length ∧ ∀ c ∈ w.data, (isWordChar c || isAccented c) = true := by
  obtain ⟨word, hc, rfl⟩ := mem_extractCriticalWords hw
  constructor
  · have hlen : (2 < (cleanToken word).length) := by
      unfold isCriticalToken at hc
      rw [Bool.and_eq_true] at hc
      exact of_decide_eq_true hc.1
    exact hlen
  · intro c hcmem
    have hmem : c ∈ cleanToken word := hcmem
    unfold cleanToken at hmem
    exact (List.mem_filter.mp hmem).2

/-- C5 counterexample: on the lyrics A1b the word A1b is extracted as a
critical word even though its second character is the digit 1, which is not a
letter; the claim that every character of every critical word is a letter is
false. -/
theorem C5_counterexample :
    ¬ ∀ w ∈ extractCriticalWords "A1b", ∀ c ∈ w.data, isLetterLike c = true := by
  decide

/-- Witness for C5: the amended statement instantiated on the A1b lyrics. -/
theorem C5_criticalWords_clean_amended_witness :
    2 < ("A1b" : String).length ∧
      ∀ c ∈ ("A1b" : String).data, (isWordChar c || isAccented c) = true :=
  C5_criticalWords_clean_amended "A1b" "A1b" (by decide)

theorem char_toNat_ofNat {n : Nat} (h : n.isValidChar) : (Char.ofNat n).toNat = n := by
  simp [Char.ofNat, h, Char.ofNatAux, Char.toNat, UInt32.toNat]

theorem toLower_eq_self {c : Char} (h : ¬(c.toNat ≥ 65 ∧ c.toNat ≤ 90)) : c.toLower = c := by
  show (if c.toNat ≥ 65 ∧ c.toNat ≤ 90 then Char.ofNat (c.toNat + 32) else c) = c
  rw [if_neg h]

theorem toLower_toNat_of_upper {c : Char} (h : c.toNat ≥ 65 ∧ c.toNat ≤ 90) :
    c.toLower.toNat = c.toNat + 32 := by
  have he : c.toLower = Char.ofNat (c.toNat + 32) := by
    show (if c.toNat ≥ 65 ∧ c.toNat ≤ 90 then Char.ofNat (c.toNat + 32) else c) = _
    rw [if_pos h]
  rw [he, char_toNat_ofNat (Or.inl (by omega))]

theorem toLower_toLower (c : Char) : c.toLower.toLower = c.toLower := by
  by_cases h : c.toNat ≥ 65 ∧ c.toNat ≤ 90
  · apply toLower_eq_self
    rw [toLower_toNat_of_upper h]
    omega
  · rw [toLower_eq_self h]
    exact toLower_eq_self h

theorem mem_collapseWs :
    ∀ (l : List Char) (c : Char), c ∈ collapseWs l →
      c = ' ' ∨ (c ∈ l ∧ isSpaceChar c = false)
  | [], c, h => by simp [collapseWs] at h
  | [d], c, h => by
    simp only [collapseWs] at h
    by_cases hd : isSpaceChar d = true
    · rw [if_pos hd] at h
      simp at h
      exact Or.inl h
    · rw [if_neg hd] at h
      simp at h
      subst h
      exact Or.inr ⟨List.mem_singleton_self _, by simpa using hd⟩
  | c₁ :: c₂ :: cs, c, h => by
    simp only [collapseWs] at h
    by_cases h12 : (isSpaceChar c₁ && isSpaceChar c₂) = true
    · rw [if_pos h12] at h
      rcases mem_collapseWs (c₂ :: cs) c h with h' | ⟨hm, hs⟩
      · exact Or.inl h'
      · exact Or.inr ⟨List.mem_cons_of_mem _ hm, hs⟩
    · rw [if_neg h12] at h
      rcases List.mem_cons.mp h with h' | h'
      · by_cases h1 : isSpaceChar c₁ = true
        · rw [if_pos h1] at h'
          exact Or.inl h'
        · rw [if_neg h1] at h'
          subst h'
          exact Or.inr ⟨List.mem_cons_self _ _, by simpa using h1⟩
      · rcases mem_collapseWs (c₂ :: cs) c h' with h'' | ⟨hm, hs⟩
        · exact Or.inl h''
        · exact Or.inr ⟨List.mem_cons_of_mem _ hm, hs⟩

theorem collapseWs_head_nonspace (c : Char) (cs : List Char) (hc : isSpaceChar c = false) :
    (collapseWs (c :: cs)).head? = some c := by
  cases cs with
  | nil => simp [collapseWs, hc]
  | cons d ds => simp [collapseWs, hc]

theorem collapseWs_chain :
    ∀ l : List Char,
      List.Chain' (fun a b => ¬(isSpaceChar a = true ∧ isSpaceChar b = true)) (collapseWs l)
  | [] => by simp [collapseWs]
  | [c] => by
    by_cases h : isSpaceChar c = true <;> simp [collapseWs, h]
  | c₁ :: c₂ :: cs => by
    have hch := collapseWs_chain (c₂ :: cs)
    by_cases h12 : (isSpaceChar c₁ && isSpaceChar c₂) = true
    · simpa [collapseWs, h12] using hch
    · have hstep : collapseWs (c₁ :: c₂ :: cs) =
          (if isSpaceChar c₁ then ' ' else c₁) :: collapseWs (c₂ :: cs) := by
        simp [collapseWs, h12]
      rw [hstep, List.chain'_cons']
      refine ⟨?_, hch⟩
      intro y hy
      by_cases h2 : isSpaceChar c₂ = true
      · have h1 : isSpaceChar c₁ = false := by
          cases hc1 : isSpaceChar c₁ <;> simp_all
        rw [if_neg (by simp [h1])]
        intro hcon
        rw [h1] at hcon
        exact absurd hcon.1 (by simp)
      · have h2' : isSpaceChar c₂ = false := by simpa using h2
        rw [collapseWs_head_nonspace c₂ cs h2'] at hy
        have hy' : c₂ = y := by simpa using hy
        subst hy'
        intro hcon
        rw [h2'] at hcon
        exact absurd hcon.2 (by simp)

theorem collapseWs_eq_self :
    ∀ l : List Char,
      (∀ c ∈ l, isSpaceChar c = true → c = ' ') →
      List.Chain' (fun a b => ¬(isSpaceChar a = true ∧ isSpaceChar b = true)) l →
      collapseWs l = l
  | [], _, _ => rfl
  | [c], hsp, _ => by
    by_cases h : isSpaceChar c = true
    · have hc := hsp c (List.mem_singleton_self _) h
      simp [collapseWs, h, hc]
    · simp [collapseWs, h]
  | c₁ :: c₂ :: cs, hsp, hch => by
    have h12 : ¬(isSpaceChar c₁ = true ∧ isSpaceChar c₂ = true) :=
      (List.chain'_cons.mp hch).1
    have hb : ¬((isSpaceChar c₁ && isSpaceChar c₂) = true) := by
      rw [Bool.and_eq_true]
      exact h12
    have hstep : collapseWs (c₁ :: c₂ :: cs) =
        (if isSpaceChar c₁ then ' ' else c₁) :: collapseWs (c₂ :: cs) := by
      simp [collapseWs, hb]
    rw [hstep,
      collapseWs_eq_self (c₂ :: cs) (fun c hc => hsp c (List.mem_cons_of_mem _ hc))
        (List.chain'_cons.mp hch).2]
    by_cases h1 : isSpaceChar c₁ = true
    · rw [if_pos h1, (hsp c₁ (List.mem_cons_self _ _) h1).symm]
    · rw [if_neg h1]

theorem chain'_trimWs (R : Char → Char → Prop) (l : List Char)
    (h : List.Chain' R l) : List.Chain' R (trimWs l) :=
  List.Chain'.prefix
    (List.Chain'.suffix h (List.dropWhile_suffix _))
    (List.rdropWhile_prefix _ _)

theorem mem_trimWs {c : Char} {l : List Char} (h : c ∈ trimWs l) : c ∈ l := by
  unfold trimWs at h
  have h1 := List.IsPrefix.sublist
    (List.rdropWhile_prefix isSpaceChar (List.dropWhile isSpaceChar l))
  have h2 := List.IsSuffix.sublist (List.dropWhile_suffix (l := l) isSpaceChar)
  exact (h1.trans h2).subset h

theorem head?_dropWhile_false (p : Char → Bool) :
    ∀ (l : List Char) (x : Char), (List.dropWhile p l).head? = some x → p x = false
  | [], x, h => by simp [List.dropWhile] at h
  | c :: cs, x, h => by
    by_cases hc : p c = true
    · rw [List.dropWhile_cons, if_pos hc] at h
      exact head?_dropWhile_false p cs x h
    · rw [List.dropWhile_cons, if_neg hc] at h
      have : c = x := by simpa using h
      subst this
      simpa using hc

theorem dropWhile_eq_self_of_head? (p : Char → Bool) (l : List Char)
    (h : ∀ x, l.head? = some x → p x = false) : List.dropWhile p l = l := by
  cases l with
  | nil => rfl
  | cons c cs =>
    have hc := h c rfl
    rw [List.dropWhile_cons, if_neg (by simp [hc])]

theorem head?_eq_of_isPre {l₁ l₂ : List Char} (h : l₁ <+: l₂) {x : Char}
    (hx : l₁.head? = some x) : l₂.head? = some x := by
  obtain ⟨t, rfl⟩ := h
  cases l₁ with
  | nil => simp at hx
  | cons c cs =>
    have : c = x := by simpa using hx
    subst this
    rfl

theorem trimWs_trimWs (l : List Char) : trimWs (trimWs l) = trimWs l := by
  unfold trimWs
  have hd : List.dropWhile isSpaceChar
      (List.rdropWhile isSpaceChar (List.dropWhile isSpaceChar l)) =
      List.rdropWhile isSpaceChar (List.dropWhile isSpaceChar l) := by
    apply dropWhile_eq_self_of_head?
    intro x hx
    have hpre := List.rdropWhile_prefix isSpaceChar (List.dropWhile isSpaceChar l)
    exact head?_dropWhile_false isSpaceChar l x (head?_eq_of_isPre hpre hx)
  rw [hd, List.rdropWhile_idempotent]

theorem normChars_idem (l : List Char) :
    trimWs (collapseWs (stripPunct (lowerStr
      (trimWs (collapseWs (stripPunct (lowerStr l))))))) =
      trimWs (collapseWs (stripPunct (lowerStr l))) := by
  have hmem : ∀ c ∈ trimWs (collapseWs (stripPunct (lowerStr l))),
      c = ' ' ∨ (c ∈ stripPunct (lowerStr l) ∧ isSpaceChar c = false) := by
    intro c hc
    exact mem_collapseWs _ c (mem_trimWs hc)
  have hlower : lowerStr (trimWs (collapseWs (stripPunct (lowerStr l)))) =
      trimWs (collapseWs (stripPunct (lowerStr l))) := by
    unfold lowerStr
    rw [List.map_congr_left, List.map_id]
    intro c hc
    rcases hmem c hc with rfl | ⟨hin, _⟩
    · decide
    · have : c ∈ lowerStr l := (List.mem_filter.mp hin).1
      obtain ⟨d, _, rfl⟩ := List.mem_map.mp this
      exact toLower_toLower d
  have hstrip : stripPunct (trimWs (collapseWs (stripPunct (lowerStr l)))) =
      trimWs (collapseWs (stripPunct (lowerStr l))) := by
    unfold stripPunct
    rw [List.filter_eq_self]
    intro c hc
    rcases hmem c hc with rfl | ⟨hin, _⟩
    · decide
    · exact (List.mem_filter.mp hin).2
  have hcollapse : collapseWs (trimWs (collapseWs (stripPunct (lowerStr l)))) =
      trimWs (collapseWs (stripPunct (lowerStr l))) := by
    apply collapseWs_eq_self
    · intro c hc hs
      rcases hmem c hc with rfl | ⟨_, hns⟩
      · rfl
      · rw [hs] at hns
        exact absurd hns (by simp)
    · exact chain'_trimWs _ _ (collapseWs_chain _)
  rw [hlower, hstrip, hcollapse, trimWs_trimWs]

theorem normalizeText_idem (s : String) :
    normalizeText (normalizeText s) = normalizeText s :=
  congrArg String.mk (normChars_idem s.data)

/-- C8: `normalizeText` is idempotent, and normalizing the hello-world
example gives the expected lowercase punctuation-free text. -/
theorem C8_normalizeText_idempotent :
    (∀ x : String, normalizeText (normalizeText x) = normalizeText x) ∧
      normalizeText "Hello, world!" = "hello world" :=
  ⟨normalizeText_idem, by decide⟩

theorem qualifies_iff (d n : ℕ) : ((d : ℚ) < (n : ℚ) * 0.5) ↔ 2 * d < n := by
  rw [show (0.5 : ℚ) = 1 / 2 by norm_num, mul_one_div,
    lt_div_iff₀ (by norm_num : (0 : ℚ) < 2)]
  constructor
  · intro h
    have h2 : ((2 * d : ℕ) : ℚ) < ((n : ℕ) : ℚ) := by push_cast; linarith
    exact_mod_cast h2
  · intro h
    have h2 : ((2 * d : ℕ) : ℚ) < ((n : ℕ) : ℚ) := by exact_mod_cast h
    push_cast at h2
    linarith

theorem decide_qualifies (d n : ℕ) :
    decide ((d : ℚ) < (n : ℚ) * 0.5) = decide (2 * d < n) :=
  decide_eq_decide.mpr (qualifies_iff d n)

theorem closestLoop_eq_natLoop (nw : List Char) :
    ∀ (toks : List (List Char)) (st : List Char × Option Nat),
      closestLoop nw toks st = closestLoopN nw toks st := by
  intro toks
  induction toks with
  | nil => intro st; rfl
  | cons w ws ih =>
    intro st
    obtain ⟨cm, md⟩ := st
    simp only [closestLoop, closestLoopN, decide_qualifies (levList nw w) nw.length]
    rw [ih]

theorem closestLoopN_some (nw : List Char) (toks : List (List Char)) :
    ∀ (cm : List Char) (m : Nat),
      (closestLoopN nw toks (cm, some m) = (cm, some m) ∧
        ∀ t ∈ toks, 2 * levList nw t < nw.length → m ≤ levList nw t) ∨
      (∃ t ∈ toks, closestLoopN nw toks (cm, some m) = (t, some (levList nw t)) ∧
        2 * levList nw t < nw.length ∧ levList nw t < m ∧
        ∀ t' ∈ toks, 2 * levList nw t' < nw.length → levList nw t ≤ levList nw t') := by
  induction toks with
  | nil =>
    intro cm m
    left
    exact ⟨rfl, by simp⟩
  | cons w ws ih =>
    intro cm m
    have hstep : closestLoopN nw (w :: ws) (cm, some m) =
        closestLoopN nw ws
          (if decide (levList nw w < m) && decide (2 * levList nw w < nw.length) then
            (w, some (levList nw w))
          else (cm, some m)) := rfl
    by_cases hacc : (decide (levList nw w < m) && decide (2 * levList nw w < nw.length)) = true
    · have hacc' : levList nw w < m ∧ 2 * levList nw w < nw.length := by
        simpa [Bool.and_eq_true, decide_eq_true_eq] using hacc
      rw [hstep, if_pos hacc]
      rcases ih w (levList nw w) with ⟨heq, hmin⟩ | ⟨t, ht, heq, hq', hlt', hmin⟩
      · right
        refine ⟨w, List.mem_cons_self _ _, heq, hacc'.2, hacc'.1, ?_⟩
        intro t' ht' hq'
        rcases List.mem_cons.mp ht' with rfl | ht''
        · exact le_rfl
        · exact hmin t' ht'' hq'
      · right
        refine ⟨t, List.mem_cons_of_mem _ ht, heq, hq', lt_trans hlt' hacc'.1, ?_⟩
        intro t' ht' hq''
        rcases List.mem_cons.mp ht' with rfl | ht''
        · exact le_of_lt hlt'
        · exact hmin t' ht'' hq''
    · have hna : ¬(levList nw w < m ∧ 2 * levList nw w < nw.length) := by
        simpa [Bool.and_eq_true, decide_eq_true_eq] using hacc
      rw [hstep, if_neg hacc]
      rcases ih cm m with ⟨heq, hmin⟩ | ⟨t, ht, heq, hq', hlt', hmin⟩
      · left
        refine ⟨heq, ?_⟩
        intro t' ht' hq'
        rcases List.mem_cons.mp ht' with rfl | ht''
        · have : ¬levList nw t' < m := fun hh => hna ⟨hh, hq'⟩
          omega
        · exact hmin t' ht'' hq'
      · right
        refine ⟨t, List.mem_cons_of_mem _ ht, heq, hq', hlt', ?_⟩
        intro t' ht' hq''
        rcases List.mem_cons.mp ht' with rfl | ht''
        · have : ¬levList nw t' < m := fun hh => hna ⟨hh, hq''⟩
          omega
        · exact hmin t' ht'' hq''

theorem closestLoopN_none (nw : List Char) (toks : List (List Char)) :
    ∀ cm : List Char,
      (closestLoopN nw toks (cm, none) = (cm, none) ∧
        ∀ t ∈ toks, ¬(2 * levList nw t < nw.length)) ∨
      (∃ t ∈ toks, closestLoopN nw toks (cm, none) = (t, some (levList nw t)) ∧
        2 * levList nw t < nw.length ∧
        ∀ t' ∈ toks, 2 * levList nw t' < nw.length → levList nw t ≤ levList nw t') := by
  induction toks with
  | nil =>
    intro cm
    left
    exact ⟨rfl, by simp⟩
  | cons w ws ih =>
    intro cm
    have hstep : closestLoopN nw (w :: ws) (cm, none) =
        closestLoopN nw ws
          (if true && decide (2 * levList nw w < nw.length) then (w, some (levList nw w))
          else (cm, none)) := rfl
    by_cases hq : 2 * levList nw w < nw.length
    · rw [hstep, if_pos (by simp [hq])]
      rcases closestLoopN_some nw ws w (levList nw w) with ⟨heq, hmin⟩ |
        ⟨t, ht, heq, hq', hlt', hmin⟩
      · right
        refine ⟨w, List.mem_cons_self _ _, heq, hq, ?_⟩
        intro t' ht' hq'
        rcases List.mem_cons.mp ht' with rfl | ht''
        · exact le_rfl
        · exact hmin t' ht'' hq'
      · right
        refine ⟨t, List.mem_cons_of_mem _ ht, heq, hq', ?_⟩
        intro t' ht' hq''
        rcases List.mem_cons.mp ht' with rfl | ht''
        · exact le_of_lt hlt'
        · exact hmin t' ht'' hq''
    · rw [hstep, if_neg (by simp [hq])]
      rcases ih cm with ⟨heq, hnone⟩ | ⟨t, ht, heq, hq', hmin⟩
      · left
        refine ⟨heq, ?_⟩
        intro t' ht'
        rcases List.mem_cons.mp ht' with rfl | ht''
        · exact hq
        · exact hnone t' ht''
      · right
        refine ⟨t, List.mem_cons_of_mem _ ht, heq, hq', ?_⟩
        intro t' ht' hq''
        rcases List.mem_cons.mp ht' with rfl | ht''
        · exact absurd hq'' hq
        · exact hmin t' ht'' hq''

theorem findClosest_spec (nw : List Char) (toks : List (List Char)) :
    (findClosest nw toks = [] ∧ ∀ t ∈ toks, ¬(2 * levList nw t < nw.length)) ∨
    (∃ t ∈ toks, findClosest nw toks = t ∧ 2 * levList nw t < nw.length ∧
      ∀ t' ∈ toks, 2 * levList nw t' < nw.length → levList nw t ≤ levList nw t') := by
  unfold findClosest
  rw [closestLoop_eq_natLoop]
  rcases closestLoopN_none nw toks [] with ⟨heq, h⟩ | ⟨t, ht, heq, hq, hmin⟩
  · left
    exact ⟨by rw [heq], h⟩
  · right
    exact ⟨t, ht, by rw [heq], hq, hmin⟩

theorem qual_tok_ne_nil {nw t : List Char} (h : 2 * levList nw t < nw.length) : t ≠ [] := by
  intro he
  subst he
  have hl : levList nw ([] : List Char) = nw.length := rfl
  omega

theorem validateAudio_nandu :
    validateAudio (.ok ⟨"a"⟩) "Ñandú" =
      .ok { valid := false,
            errors := [⟨"Ñandú", "Ñandú", "(not found)"⟩],
            confidence := 100 / 3,
            transcription := "a" } := by
  have hcrit : extractCriticalWords "Ñandú" = ["Ñandú"] := by decide
  have hn1 : normalizeText "Ñandú" = "and" := by decide
  have hn2 : normalizeText ("a" : String) = "a" := by decide
  have hsim : calculateSimilarity "and" "a" = 100 / 3 := by
    have h0 : levenshteinDistance "and" "a" = 2 := by decide
    have hl1 : ("and".length) = 3 := rfl
    have hl2 : ("a".length) = 1 := rfl
    simp [calculateSimilarity, h0, hl1, hl2]
    norm_num
  have hwb : wordBoundaryMatch "and" "a" = false := by decide
  have hfc : findClosest ("and" : String).data (splitWS ("a" : String).data) = [] := by
    unfold findClosest
    rw [closestLoop_eq_natLoop]
    decide
  simp only [validateAudio, hcrit, hn1, hn2, hsim, List.filterMap_cons, List.filterMap_nil,
    hwb, hfc, Except.ok.injEq, ValidationResult.mk.injEq, notFoundSentinel]
  simp

/-- C4 (amended): in every completed validation, each critical word whose
normalized form does not occur as a whole-word match in the normalized
transcription yields a `ValidationError` (with `expected` equal to the
word), and every recorded error satisfies: its `got` field is a whitespace
token of the normalized transcription of minimum edit distance to the
normalized critical word among the tokens with distance strictly below half
the NORMALIZED critical word length, or the not-found sentinel when no token
qualifies. -/
theorem C4_validateAudio_got_amended (t : TranscriptionResult) (gt : String)
    (r : ValidationResult) (h : validateAudio (.ok t) gt = .ok r) :
    (∀ w ∈ extractCriticalWords gt,
        wordBoundaryMatch (normalizeText w) (normalizeText t.text) = false →
        ∃ e ∈ r.errors, e.word = w) ∧
      ∀ e ∈ r.errors,
        e.expected = e.word ∧ e.word ∈ extractCriticalWords gt ∧
          wordBoundaryMatch (normalizeText e.word) (normalizeText t.text) = false ∧
          amendedGotOk e.word e.got (normalizeText t.text) := by
  simp only [validateAudio, Except.ok.injEq] at h
  subst h
  constructor
  · intro w hw hnb
    dsimp only
    refine ⟨⟨w, w, if (findClosest (normalizeText w).data (splitWS (normalizeText t.text).data)).isEmpty then notFoundSentinel else ⟨findClosest (normalizeText w).data (splitWS (normalizeText t.text).data)⟩⟩, ?_, rfl⟩
    rw [List.mem_filterMap]
    refine ⟨w, hw, ?_⟩
    simp [hnb]
  · intro e he
    dsimp only at he
    rw [List.mem_filterMap] at he
    obtain ⟨w, hw, hsome⟩ := he
    by_cases hb : wordBoundaryMatch (normalizeText w) (normalizeText t.text) = true
    · simp [hb] at hsome
    · have hb' : wordBoundaryMatch (normalizeText w) (normalizeText t.text) = false := by
        simpa using hb
      simp only [hb', Bool.false_eq_true, if_false] at hsome
      have he' : e = ⟨w, w, if (findClosest (normalizeText w).data (splitWS (normalizeText t.text).data)).isEmpty then notFoundSentinel else ⟨findClosest (normalizeText w).data (splitWS (normalizeText t.text).data)⟩⟩ := (Option.some.inj hsome).symm
      subst he'
      refine ⟨rfl, hw, hb', ?_⟩
      simp only [amendedGotOk]
      rcases findClosest_spec (normalizeText w).data (splitWS (normalizeText t.text).data) with
        ⟨hfc, hnone⟩ | ⟨tok, htok, hfc, hq, hmin⟩
      · rw [if_neg]
        · simp [hfc, notFoundSentinel]
        · rintro ⟨tok, htok, hqq⟩
          exact hnone tok htok ((qualifies_iff _ _).mp hqq)
      · rw [if_pos ⟨tok, htok, (qualifies_iff _ _).mpr hq⟩]
        refine ⟨tok, htok, ?_, (qualifies_iff _ _).mpr hq, ?_⟩
        · rw [hfc]
          simp [qual_tok_ne_nil hq]
        · intro tok' htok' hqq'
          exact hmin tok' htok' ((qualifies_iff _ _).mp hqq')

/-- C4 counterexample: for ground truth Ñandú (normalized form: and, length
3) and transcription a, the only transcription token a has edit distance 2
to the normalized word, which is below half the length of the critical word
Ñandú itself (2 < 2.5), so the claim as stated requires got = a; the code
compares against half the NORMALIZED length (2 < 1.5 fails) and records the
not-found sentinel instead. -/
theorem C4_counterexample :
    ¬ ∀ e ∈ errsOf (validateAudio (.ok ⟨"a"⟩) "Ñandú"),
        claimGotOk e.word e.got (normalizeText ("a" : String)) := by
  intro hall
  have herr : errsOf (validateAudio (.ok ⟨"a"⟩) "Ñandú") =
      [⟨"Ñandú", "Ñandú", "(not found)"⟩] := by
    rw [validateAudio_nandu]
    rfl
  rw [herr] at hall
  have h1 := hall ⟨"Ñandú", "Ñandú", "(not found)"⟩ (by simp)
  simp only [claimGotOk] at h1
  have hex : ∃ tok ∈ splitWS (normalizeText ("a" : String)).data,
      claimQualifies "Ñandú" (normalizeText "Ñandú").data tok := by
    refine ⟨("a" : String).data, by decide, ?_⟩
    simp only [claimQualifies]
    have hdist : levList (normalizeText "Ñandú").data ("a" : String).data = 2 := by decide
    have hlen : (("Ñandú" : String).length) = 5 := rfl
    rw [hdist, hlen]
    norm_num
  rw [if_pos hex] at h1
  obtain ⟨tok, htok, hgot, -⟩ := h1
  have htoks : splitWS (normalizeText ("a" : String)).data = [("a" : String).data] := by decide
  rw [htoks] at htok
  have htok' : tok = ("a" : String).data := by simpa using htok
  subst htok'
  exact absurd hgot (by decide)

/-- Witness for C4: the amended description holds of the single error of the
Ñandú validation run, whose got field took the not-found branch. -/
theorem C4_validateAudio_got_amended_witness :
    (⟨"Ñandú", "Ñandú", "(not found)"⟩ : ValidationError).expected =
        (⟨"Ñandú", "Ñandú", "(not found)"⟩ : ValidationError).word ∧
      (⟨"Ñandú", "Ñandú", "(not found)"⟩ : ValidationError).word ∈
        extractCriticalWords "Ñandú" ∧
      wordBoundaryMatch
          (normalizeText (⟨"Ñandú", "Ñandú", "(not found)"⟩ : ValidationError).word)
          (normalizeText (TranscriptionResult.mk "a").text) = false ∧
      amendedGotOk (⟨"Ñandú", "Ñandú", "(not found)"⟩ : ValidationError).word
        (⟨"Ñandú", "Ñandú", "(not found)"⟩ : ValidationError).got
        (normalizeText (TranscriptionResult.mk "a").text) :=
  (C4_validateAudio_got_amended ⟨"a"⟩ "Ñandú"
      ⟨false, [⟨"Ñandú", "Ñandú", "(not found)"⟩], 100 / 3, "a"⟩ validateAudio_nandu).2
    ⟨"Ñandú", "Ñandú", "(not found)"⟩ (by simp)

/-- Witness for C3: a concrete failing transcription is propagated verbatim. -/
theorem C3_validateAudio_propagates_failure_witness :
    validateAudio (.error "network failure") "hola" = .error "network failure" :=
  C3_validateAudio_propagates_failure.1 "network failure" "hola"
